import Mathlib

/-!
Verification development for the VIGILUM ML core (vigilum_ml package):
shallow embedding of the bytecode decoder, feature extractor, sequence
encoder, result interpreter and similarity engine, with theorems about
the properties stated in the design document.

Conventions: Python floats are modelled as rationals (ℚ) where the code
only does field arithmetic and comparisons, and as reals (ℝ) where
logarithms or square roots occur; hex strings are lists of characters;
byte strings are lists of naturals (each < 256 when produced by hex
decoding).
-/

namespace Vigilum

/-! ## Vulnerability category table (dataset.py, VULN_TYPES) -/

/-- Canonical ordered list of vulnerability categories (dataset.py lines 22-36). -/
def VULN_TYPES : List String :=
  ["reentrancy",
   "access_control",
   "integer_overflow",
   "integer_underflow",
   "unchecked_call",
   "tx_origin",
   "timestamp_dependency",
   "flash_loan",
   "oracle_manipulation",
   "rug_pull",
   "honeypot",
   "logic_error",
   "denial_of_service"]

/-! ## Result interpretation (service.py, InferenceService) -/

/-- Model of models.VulnerabilityPrediction: category, confidence, severity. -/
structure VulnerabilityPrediction where
  vuln_type : String
  confidence : ℚ
  severity : String
deriving DecidableEq

/-- Model of InferenceService._get_severity (service.py lines 200-225):
fixed severity tiering by category group and confidence thresholds. -/
def getSeverity (vulnType : String) (confidence : ℚ) : String :=
  if vulnType ∈ ["reentrancy", "access_control", "flash_loan", "oracle_manipulation"] then
    if confidence > 4/5 then "critical"
    else if confidence > 3/5 then "high"
    else "medium"
  else if vulnType ∈ ["rug_pull", "honeypot", "integer_overflow", "integer_underflow"] then
    if confidence > 4/5 then "high"
    else if confidence > 1/2 then "medium"
    else "low"
  else
    if confidence > 4/5 then "medium"
    else "low"

/-- Model of the reporting loop in InferenceService._postprocess_outputs
(service.py lines 174-180): for each category in order, report it when its
probability exceeds the 0.3 threshold. -/
def candidateFindings (vulnProbs : List ℚ) : List VulnerabilityPrediction :=
  (VULN_TYPES.zip vulnProbs).filterMap
    (fun p => if p.2 > 3/10 then some ⟨p.1, p.2, getSeverity p.1 p.2⟩ else none)

/-- Insertion step of a stable descending sort on confidence: the new element
goes after every earlier element whose confidence is at least as large. -/
def insertByConf (x : VulnerabilityPrediction) :
    List VulnerabilityPrediction → List VulnerabilityPrediction
  | [] => [x]
  | y :: ys => if y.confidence < x.confidence then x :: y :: ys else y :: insertByConf x ys

/-- Model of vulnerabilities.sort(key confidence, reverse) in
_postprocess_outputs (service.py line 183): CPython list.sort is stable, and
with reverse it yields a stable descending sort, which this insertion sort
reproduces. -/
def sortByConfDesc (l : List VulnerabilityPrediction) : List VulnerabilityPrediction :=
  l.foldl (fun acc x => insertByConf x acc) []

/-- Model of Python int() applied to a rational: truncation toward zero. -/
def pyInt (q : ℚ) : ℤ := if 0 ≤ q then ⌊q⌋ else ⌈q⌉

/-- Model of models.ContractFeatures. The opcode distribution is the list of
(mnemonic, count) pairs in first-occurrence order (Python Counter / dict);
function selectors are a finite set (the code builds list(set(...)), whose
order is unspecified). -/
structure ContractFeatures where
  bytecode_length : ℕ
  opcode_distribution : List (String × ℕ)
  unique_opcodes : ℕ
  jump_count : ℕ
  call_count : ℕ
  delegatecall_count : ℕ
  staticcall_count : ℕ
  selfdestruct_present : Bool
  sload_count : ℕ
  sstore_count : ℕ
  external_calls : ℕ
  ether_transfers : ℕ
  cyclomatic_complexity : ℚ
  code_entropy : ℝ
  function_selectors : Finset String
  is_proxy : Bool
  is_upgradeable : Bool
  has_ownership : Bool
  has_pausable : Bool

/-- Raw model outputs as assembled by _predict_pytorch / _predict_onnx:
malicious probability, per-class vulnerability probabilities, risk value,
embedding vector. -/
structure RawOutputs where
  is_malicious : ℚ
  vulnerabilities : List ℚ
  risk_score : ℚ
  features : List ℚ

/-- Model of models.PredictionResult (flexible version, models.py lines 200-217). -/
structure PredictionResult where
  is_malicious : Bool
  malicious_probability : ℚ
  risk_score : ℤ
  vulnerabilities : List VulnerabilityPrediction
  embedding : Option (List ℚ)
  contract_features : Option ContractFeatures

/-- Model of InferenceService._postprocess_outputs (service.py lines 164-198).
The feature extractor attribute is passed as the function xf; the source wraps
the extract call in try/except and attaches None on any failure, modelled by
matching on the Except value. -/
def postprocessOutputs (xf : List Char → Except String ContractFeatures)
    (out : RawOutputs) (bytecodeHex : List Char) : PredictionResult :=
  { is_malicious := decide (out.is_malicious > 1/2)
    malicious_probability := out.is_malicious
    risk_score := pyInt (out.risk_score * 100)
    vulnerabilities := sortByConfDesc (candidateFindings out.vulnerabilities)
    embedding := some out.features
    contract_features :=
      match xf bytecodeHex with
      | .ok f => some f
      | .error _ => none }

/-! ## Hex decoding and sequence encoding (service.py _preprocess_bytecode) -/

/-- Model of str.startswith plus slicing in the normalization step:
drop a leading 0x if present (applied after lowercasing). -/
def strip0x : List Char → List Char
  | '0' :: 'x' :: rest => rest
  | s => s

/-- Value of one hexadecimal digit character, as accepted by bytes.fromhex. -/
def hexDigitVal (c : Char) : Option ℕ :=
  if '0' ≤ c ∧ c ≤ '9' then some (c.toNat - '0'.toNat)
  else if 'a' ≤ c ∧ c ≤ 'f' then some (c.toNat - 'a'.toNat + 10)
  else if 'A' ≤ c ∧ c ≤ 'F' then some (c.toNat - 'A'.toNat + 10)
  else none

/-- Characters skipped by bytes.fromhex on Python 3.7 and later: the six
ASCII whitespace characters of Py_ISSPACE. -/
def isPySpace (c : Char) : Bool :=
  c = ' ' || c = '\t' || c = '\n' || c = '\x0B' || c = '\x0C' || c = '\r'

/-- Model of bytes.fromhex (Python 3.7 and later): ASCII whitespace before a
digit pair (or trailing) is skipped, then two adjacent hexadecimal digits
make one byte; a whitespace or non-hex character in the second digit
position, a lone trailing digit, or any other non-hex character fails with
ValueError. -/
def fromhexChars : List Char → Option (List ℕ)
  | [] => some []
  | [c] => if isPySpace c then some [] else none
  | c1 :: c2 :: rest =>
    if isPySpace c1 then fromhexChars (c2 :: rest)
    else
      match hexDigitVal c1, hexDigitVal c2, fromhexChars rest with
      | some d1, some d2, some bs => some ((16 * d1 + d2) :: bs)
      | _, _, _ => none

/-- Normalization plus decoding shared by _preprocess_bytecode (service.py
lines 107-114), ContractDataset._bytecode_to_tensor and
FeatureExtractor.extract: lowercase, strip the 0x, decode hex. -/
def parseHexBytes (s : List Char) : Option (List ℕ) :=
  fromhexChars (strip0x (s.map Char.toLower))

/-- Model of InferenceService._preprocess_bytecode (service.py lines 105-129):
invalid hex becomes the empty byte string; shorter sequences are right-padded
with the sentinel 256, longer ones truncated to the first maxLen bytes. -/
def preprocessBytecode (hex : List Char) (maxLen : ℕ) : List ℕ :=
  let bytes := (parseHexBytes hex).getD []
  if bytes.length < maxLen then bytes ++ List.replicate (maxLen - bytes.length) 256
  else bytes.take maxLen

/-- Model of the mask computed in _predict_onnx (service.py line 151):
attention_mask is bytecode not-equal 256, per position. -/
def onnxMask (seq : List ℕ) : List Bool :=
  seq.map (fun b => decide (b ≠ 256))

/-! ## Pooling arithmetic of the scoring model (model.py forward, lines 147-153)

The pooling acts coordinatewise on the encoded sequence, so one coordinate is
modelled: encoded is the list of per-position scalars for a fixed coordinate
of the transformer output. -/

/-- Model of the masked mean pooling branch of VulnerabilityDetector.forward:
sum of encoded times mask divided by the count of valid positions clamped to
at least 1. -/
def maskedPool (encoded : List ℚ) (mask : List Bool) : ℚ :=
  (List.zipWith (fun e b => if b then e else 0) encoded mask).sum
    / ((max (mask.count true) 1 : ℕ) : ℚ)

/-- Model of the unmasked branch of VulnerabilityDetector.forward: plain mean
over all sequence positions. -/
def plainPool (encoded : List ℚ) : ℚ :=
  encoded.sum / (encoded.length : ℚ)

/-- Pooling stage of VulnerabilityDetector.forward (model.py lines 147-153):
masked mean when an attention mask is supplied, plain mean otherwise. -/
def modelPooled (encoded : List ℚ) (attentionMask : Option (List Bool)) : ℚ :=
  match attentionMask with
  | some m => maskedPool encoded m
  | none => plainPool encoded

/-- Pooled value along the PyTorch execution path. _predict_pytorch (service.py
lines 131-144) calls the model with the bytecode tensor only, so forward
receives attention_mask None; enc abstracts the embedding plus transformer
stack for one output coordinate (it may depend on the key padding mask). -/
def pytorchPathPooled (enc : List ℕ → Option (List Bool) → List ℚ)
    (seq : List ℕ) : ℚ :=
  modelPooled (enc seq none) none

/-- Pooled value along the ONNX execution path. _predict_onnx (service.py
lines 146-162) feeds the bytecode together with the mask (bytecode not-equal
256), and the exported graph (export_to_onnx traces forward with both inputs)
applies the masked branches. -/
def onnxPathPooled (enc : List ℕ → Option (List Bool) → List ℚ)
    (seq : List ℕ) : ℚ :=
  modelPooled (enc seq (some (onnxMask seq))) (some (onnxMask seq))

/-! ## Instruction decoder (features.py _parse_opcodes) -/

/-- Model of the OPCODES table (features.py lines 16-92). -/
def OPCODES (op : ℕ) : Option String :=
  match op with
  | 0x00 => some "STOP"
  | 0x01 => some "ADD"
  | 0x02 => some "MUL"
  | 0x03 => some "SUB"
  | 0x04 => some "DIV"
  | 0x05 => some "SDIV"
  | 0x06 => some "MOD"
  | 0x10 => some "LT"
  | 0x11 => some "GT"
  | 0x14 => some "EQ"
  | 0x15 => some "ISZERO"
  | 0x16 => some "AND"
  | 0x17 => some "OR"
  | 0x18 => some "XOR"
  | 0x19 => some "NOT"
  | 0x1A => some "BYTE"
  | 0x1B => some "SHL"
  | 0x1C => some "SHR"
  | 0x20 => some "SHA3"
  | 0x30 => some "ADDRESS"
  | 0x31 => some "BALANCE"
  | 0x32 => some "ORIGIN"
  | 0x33 => some "CALLER"
  | 0x34 => some "CALLVALUE"
  | 0x35 => some "CALLDATALOAD"
  | 0x36 => some "CALLDATASIZE"
  | 0x37 => some "CALLDATACOPY"
  | 0x38 => some "CODESIZE"
  | 0x39 => some "CODECOPY"
  | 0x3A => some "GASPRICE"
  | 0x3B => some "EXTCODESIZE"
  | 0x3C => some "EXTCODECOPY"
  | 0x3D => some "RETURNDATASIZE"
  | 0x3E => some "RETURNDATACOPY"
  | 0x3F => some "EXTCODEHASH"
  | 0x40 => some "BLOCKHASH"
  | 0x41 => some "COINBASE"
  | 0x42 => some "TIMESTAMP"
  | 0x43 => some "NUMBER"
  | 0x44 => some "DIFFICULTY"
  | 0x45 => some "GASLIMIT"
  | 0x46 => some "CHAINID"
  | 0x47 => some "SELFBALANCE"
  | 0x48 => some "BASEFEE"
  | 0x50 => some "POP"
  | 0x51 => some "MLOAD"
  | 0x52 => some "MSTORE"
  | 0x53 => some "MSTORE8"
  | 0x54 => some "SLOAD"
  | 0x55 => some "SSTORE"
  | 0x56 => some "JUMP"
  | 0x57 => some "JUMPI"
  | 0x58 => some "PC"
  | 0x59 => some "MSIZE"
  | 0x5A => some "GAS"
  | 0x5B => some "JUMPDEST"
  | 0x5F => some "PUSH0"
  | 0xA0 => some "LOG0"
  | 0xA1 => some "LOG1"
  | 0xA2 => some "LOG2"
  | 0xA3 => some "LOG3"
  | 0xA4 => some "LOG4"
  | 0xF0 => some "CREATE"
  | 0xF1 => some "CALL"
  | 0xF2 => some "CALLCODE"
  | 0xF3 => some "RETURN"
  | 0xF4 => some "DELEGATECALL"
  | 0xF5 => some "CREATE2"
  | 0xFA => some "STATICCALL"
  | 0xFD => some "REVERT"
  | 0xFE => some "INVALID"
  | 0xFF => some "SELFDESTRUCT"
  | _ => none

/-- Model of Python hex(): 0x followed by lowercase hexadecimal digits. -/
def hexRepr (n : ℕ) : String :=
  "0x" ++ String.mk (Nat.toDigits 16 n)

/-- Model of FeatureExtractor._parse_opcodes (features.py lines 176-204).
Each emitted instruction is paired with the number of input bytes the cursor
advanced for it: 1 for plain opcodes, 1 plus the declared operand size for a
PUSH, truncated to the bytes that remain when a trailing PUSH declares more
operand bytes than are left (the source loop exits because i jumps past the
end; it only ever reads bytecode at i below the length, so it cannot index
out of bounds). -/
def parseOpcodes : List ℕ → List (String × ℕ)
  | [] => []
  | op :: rest =>
    if 0x60 ≤ op ∧ op ≤ 0x7F then
      let pushSize := op - 0x5F
      ("PUSH" ++ toString pushSize, 1 + min pushSize rest.length)
        :: parseOpcodes (rest.drop pushSize)
    else if 0x80 ≤ op ∧ op ≤ 0x8F then
      ("DUP" ++ toString (op - 0x7F), 1) :: parseOpcodes rest
    else if 0x90 ≤ op ∧ op ≤ 0x9F then
      ("SWAP" ++ toString (op - 0x8F), 1) :: parseOpcodes rest
    else
      ((OPCODES op).getD ("UNKNOWN_" ++ hexRepr op), 1) :: parseOpcodes rest
termination_by bs => bs.length
decreasing_by
  all_goals simp [List.length_drop]
  all_goals omega

/-! ## Feature extraction (features.py FeatureExtractor) -/

/-- Mnemonic stream of the decoder, as consumed by the feature computations
(the opcodes_list / Counter of _parse_opcodes). -/
def opcodeNames (bytecode : List ℕ) : List String :=
  (parseOpcodes bytecode).map Prod.fst

/-- Model of FeatureExtractor._count_external_calls (features.py lines
206-213): CALL plus DELEGATECALL plus STATICCALL plus CALLCODE counts. -/
def countExternalCalls (names : List String) : ℕ :=
  names.count "CALL" + names.count "DELEGATECALL"
    + names.count "STATICCALL" + names.count "CALLCODE"

/-- Model of FeatureExtractor._estimate_complexity (features.py lines
215-219): JUMPI count plus one. -/
def estimateComplexity (names : List String) : ℚ :=
  (names.count "JUMPI" : ℚ) + 1

/-- Model of FeatureExtractor._calculate_entropy (features.py lines 221-235):
Shannon entropy in bits of the byte-value distribution, 0 for empty input.
The Counter iterates over the distinct values present in the data, each with
a positive count. -/
noncomputable def codeEntropy (data : List ℕ) : ℝ :=
  if data = [] then 0
  else ∑ v ∈ data.toFinset,
    -(((data.count v : ℝ) / (data.length : ℝ))
      * Real.logb 2 ((data.count v : ℝ) / (data.length : ℝ)))

/-- Whether pat occurs at the head of s. -/
def seqStarts : List Char → List Char → Bool
  | [], _ => true
  | _ :: _, [] => false
  | p :: ps, c :: cs => decide (p = c) && seqStarts ps cs

/-- Model of the Python substring test (pat in s) on character lists. -/
def seqHas (pat : List Char) : List Char → Bool
  | [] => seqStarts pat []
  | c :: cs => seqStarts pat (c :: cs) || seqHas pat cs

/-- Lowercase hexadecimal digit test, the character class of the selector
regular expression. -/
def isHexLower (c : Char) : Bool :=
  decide (('0' ≤ c ∧ c ≤ '9') ∨ ('a' ≤ c ∧ c ≤ 'f'))

/-- Model of re.findall applied to the selector pattern 63 followed by eight
hex digits in _extract_selectors (features.py lines 237-248): leftmost
non-overlapping matches over the raw hex string, capturing the eight digits. -/
def findSelectorMatches : List Char → List (List Char)
  | [] => []
  | c :: rest =>
    if c = '6' then
      match rest with
      | [] => []
      | d :: tail =>
        if d = '3' ∧ 8 ≤ tail.length ∧ (tail.take 8).all isHexLower then
          tail.take 8 :: findSelectorMatches (tail.drop 8)
        else findSelectorMatches (d :: tail)
    else findSelectorMatches rest
termination_by s => s.length
decreasing_by
  all_goals simp [List.length_drop]
  all_goals omega

/-- Model of _extract_selectors including the final list(set(...)) dedup,
whose iteration order is unspecified, hence a finite set. -/
def extractSelectors (bytecodeHex : List Char) : Finset String :=
  ((findSelectorMatches bytecodeHex).map
    (fun m => String.mk ('0' :: 'x' :: m))).toFinset

/-- Model of FeatureExtractor._detect_proxy_pattern (features.py lines
250-260): DELEGATECALL present and either the EIP-1167 byte pattern occurs or
the hex string is short. -/
def detectProxyPattern (names : List String) (bytecodeHex : List Char) : Bool :=
  if names.count "DELEGATECALL" > 0 then
    if seqHas ("363d3d373d3d3d363d73".toList) bytecodeHex then true
    else if names.count "DELEGATECALL" ≥ 1 ∧ bytecodeHex.length < 1000 then true
    else false
  else false

/-- Model of FeatureExtractor._detect_upgradeable (features.py lines 262-267):
either EIP-1967 storage slot constant occurs in the hex string. -/
def detectUpgradeable (bytecodeHex : List Char) : Bool :=
  seqHas ("360894a13ba1a3210667c828492db98dca3e2076cc3735a920a3ca505d382bbc".toList)
      bytecodeHex
    || seqHas ("b53127684a568b3173ae13b9f8a6016e243e63b6e8ee1178d6a717850b5d6103".toList)
      bytecodeHex

/-- Model of FeatureExtractor._detect_ownership (features.py lines 269-272). -/
def detectOwnership (bytecodeHex : List Char) : Bool :=
  seqHas ("8da5cb5b".toList) bytecodeHex

/-- Model of FeatureExtractor._detect_pausable (features.py lines 274-277). -/
def detectPausable (bytecodeHex : List Char) : Bool :=
  seqHas ("5c975abb".toList) bytecodeHex

/-- Model of FeatureExtractor.extract (features.py lines 119-174): normalize,
decode hex (failing with a ValueError on invalid input), decode opcodes, and
assemble the feature record. The opcode distribution lists the distinct
mnemonics in first-occurrence order with their counts. -/
noncomputable def extractFeatures (bytecodeHex : List Char) :
    Except String ContractFeatures :=
  let hex := strip0x (bytecodeHex.map Char.toLower)
  match fromhexChars hex with
  | none => .error "Invalid bytecode hex"
  | some bytecode =>
    let names := opcodeNames bytecode
    let dist := names.dedup.map (fun n => (n, names.count n))
    .ok
      { bytecode_length := bytecode.length
        opcode_distribution := dist
        unique_opcodes := dist.length
        jump_count := names.count "JUMP" + names.count "JUMPI"
        call_count := names.count "CALL"
        delegatecall_count := names.count "DELEGATECALL"
        staticcall_count := names.count "STATICCALL"
        selfdestruct_present := decide (names.count "SELFDESTRUCT" > 0)
        sload_count := names.count "SLOAD"
        sstore_count := names.count "SSTORE"
        external_calls := countExternalCalls names
        ether_transfers := names.count "CALL"
        cyclomatic_complexity := estimateComplexity names
        code_entropy := codeEntropy bytecode
        function_selectors := extractSelectors hex
        is_proxy := detectProxyPattern names hex
        is_upgradeable := detectUpgradeable hex
        has_ownership := detectOwnership hex
        has_pausable := detectPausable hex }

/-! ## Similarity engine (service.py InferenceService.similarity) -/

/-- Dot product of two embedding vectors (np.dot on equal-length vectors). -/
def dotL (a b : List ℝ) : ℝ :=
  (List.zipWith (fun x y => x * y) a b).sum

/-- Sum of squares of an embedding vector. -/
def sumSq (a : List ℝ) : ℝ :=
  (a.map (fun x => x * x)).sum

/-- Euclidean norm (np.linalg.norm). -/
noncomputable def normL (a : List ℝ) : ℝ :=
  Real.sqrt (sumSq a)

open Classical in
/-- Model of InferenceService.similarity (service.py lines 236-260) as a
function of the two embeddings returned by get_embedding: empty embedding or
zero norm short-circuits to 0.0, otherwise the cosine of the two vectors. -/
noncomputable def similarityFromEmbeddings (emb1 emb2 : List ℝ) : ℝ :=
  if emb1 = [] ∨ emb2 = [] then 0
  else if normL emb1 = 0 ∨ normL emb2 = 0 then 0
  else dotL emb1 emb2 / (normL emb1 * normL emb2)

/-- Concrete instantiation of the per-coordinate embedding plus transformer
stack used to compare the two execution paths: it ignores the key padding
mask and maps padding positions to 0 and byte positions to 2, so both paths
see the same encoded sequence and any output difference comes from the
pooling stage alone. -/
def sharedEncoder : List ℕ → Option (List Bool) → List ℚ :=
  fun seq _ => seq.map (fun b => if b = 256 then 0 else 2)

/-- Concrete feature record used to instantiate a succeeding extractor. -/
noncomputable def sampleFeatures : ContractFeatures :=
  { bytecode_length := 0
    opcode_distribution := []
    unique_opcodes := 0
    jump_count := 0
    call_count := 0
    delegatecall_count := 0
    staticcall_count := 0
    selfdestruct_present := false
    sload_count := 0
    sstore_count := 0
    external_calls := 0
    ether_transfers := 0
    cyclomatic_complexity := 1
    code_entropy := 0
    function_selectors := ∅
    is_proxy := false
    is_upgradeable := false
    has_ownership := false
    has_pausable := false }

/-- Feature record extracted from the empty bytecode. -/
noncomputable def emptyFeatures : ContractFeatures :=
  { bytecode_length := 0
    opcode_distribution := []
    unique_opcodes := 0
    jump_count := 0
    call_count := 0
    delegatecall_count := 0
    staticcall_count := 0
    selfdestruct_present := false
    sload_count := 0
    sstore_count := 0
    external_calls := 0
    ether_transfers := 0
    cyclomatic_complexity := 1
    code_entropy := codeEntropy []
    function_selectors := ∅
    is_proxy := false
    is_upgradeable := false
    has_ownership := false
    has_pausable := false }

/-! ## Theorems -/

/-- Every hexadecimal digit decodes to a value of at most 15. -/
theorem hexDigitVal_le {c : Char} {d : ℕ} (h : hexDigitVal c = some d) : d ≤ 15 := by
  have h57 : ('9').val.toNat = 57 := by decide
  have h48 : ('0').val.toNat = 48 := by decide
  have h102 : ('f').val.toNat = 102 := by decide
  have h97 : ('a').val.toNat = 97 := by decide
  have h70 : ('F').val.toNat = 70 := by decide
  have h65 : ('A').val.toNat = 65 := by decide
  unfold hexDigitVal at h
  split_ifs at h with h1 h2 h3
  · obtain ⟨-, hb⟩ := h1
    have h4 : c.val.toNat ≤ ('9').val.toNat := Char.le_def.mp hb
    obtain rfl : c.toNat - ('0').toNat = d := by injection h
    simp only [Char.toNat]
    omega
  · obtain ⟨-, hb⟩ := h2
    have h4 : c.val.toNat ≤ ('f').val.toNat := Char.le_def.mp hb
    obtain rfl : c.toNat - ('a').toNat + 10 = d := by injection h
    simp only [Char.toNat]
    omega
  · obtain ⟨-, hb⟩ := h3
    have h4 : c.val.toNat ≤ ('F').val.toNat := Char.le_def.mp hb
    obtain rfl : c.toNat - ('A').toNat + 10 = d := by injection h
    simp only [Char.toNat]
    omega

/-- Every byte produced by hex decoding is at most 255. -/
theorem fromhexChars_all_le :
    ∀ (s : List Char) (bs : List ℕ), fromhexChars s = some bs → ∀ b ∈ bs, b ≤ 255
  | [], bs, h => by
    simp only [fromhexChars, Option.some.injEq] at h
    subst h
    simp
  | [c], bs, h => by
    simp only [fromhexChars] at h
    split_ifs at h
    simp only [Option.some.injEq] at h
    subst h
    simp
  | c1 :: c2 :: rest, bs, h => by
    simp only [fromhexChars] at h
    split_ifs at h with hsp
    case pos => exact fromhexChars_all_le (c2 :: rest) bs h
    cases hd1 : hexDigitVal c1 with
    | none => rw [hd1] at h; simp at h
    | some d1 =>
      cases hd2 : hexDigitVal c2 with
      | none => rw [hd1, hd2] at h; simp at h
      | some d2 =>
        cases hr : fromhexChars rest with
        | none => rw [hd1, hd2, hr] at h; simp at h
        | some bs2 =>
          rw [hd1, hd2, hr] at h
          simp only [Option.some.injEq] at h
          subst h
          intro b hb
          rcases List.mem_cons.mp hb with rfl | hb2
          · have hb1 := hexDigitVal_le hd1
            have hb2' := hexDigitVal_le hd2
            omega
          · exact fromhexChars_all_le rest bs2 hr b hb2

/-- Every byte produced by the normalize-and-decode step is at most 255. -/
theorem parseHexBytes_all_le {s : List Char} {bs : List ℕ}
    (h : parseHexBytes s = some bs) : ∀ b ∈ bs, b ≤ 255 :=
  fromhexChars_all_le _ bs h

/-- C4: the encoder pads a K-byte sequence with sentinels and an all-false
mask tail when K is at most the configured maximum, truncates to the first
maxLen bytes with an all-true mask when K exceeds it, and maps invalid hex to
an all-padding, all-false-mask sequence; it is total by construction. -/
theorem C4_encoding (hex : List Char) (M : ℕ) :
    (∀ bytes, parseHexBytes hex = some bytes →
      (∀ b ∈ bytes, b ≤ 255) ∧
      (bytes.length ≤ M →
        preprocessBytecode hex M = bytes ++ List.replicate (M - bytes.length) 256 ∧
        onnxMask (preprocessBytecode hex M) =
          List.replicate bytes.length true ++ List.replicate (M - bytes.length) false) ∧
      (M < bytes.length →
        preprocessBytecode hex M = bytes.take M ∧
        onnxMask (preprocessBytecode hex M) = List.replicate M true)) ∧
    (parseHexBytes hex = none →
      preprocessBytecode hex M = List.replicate M 256 ∧
      onnxMask (preprocessBytecode hex M) = List.replicate M false) := by
  constructor
  · intro bytes hb
    have hle : ∀ b ∈ bytes, b ≤ 255 := parseHexBytes_all_le hb
    have hmapb : bytes.map (fun b => decide (b ≠ 256)) = List.replicate bytes.length true := by
      apply List.eq_replicate_iff.mpr
      refine ⟨by simp, ?_⟩
      intro x hx
      obtain ⟨b, hbm, rfl⟩ := List.mem_map.mp hx
      have := hle b hbm
      simp
      omega
    refine ⟨hle, fun hKM => ?_, fun hMK => ?_⟩
    · have hseq : preprocessBytecode hex M = bytes ++ List.replicate (M - bytes.length) 256 := by
        simp only [preprocessBytecode, hb, Option.getD_some]
        rcases lt_or_eq_of_le hKM with hlt | heq
        · rw [if_pos hlt]
        · rw [if_neg (by omega)]
          rw [heq, List.take_of_length_le (by omega)]
          simp [heq]
      refine ⟨hseq, ?_⟩
      rw [hseq]
      simp only [onnxMask, List.map_append, List.map_replicate, hmapb]
      simp
    · have hseq : preprocessBytecode hex M = bytes.take M := by
        simp only [preprocessBytecode, hb, Option.getD_some]
        rw [if_neg (by omega)]
      refine ⟨hseq, ?_⟩
      rw [hseq]
      apply List.eq_replicate_iff.mpr
      refine ⟨by simp [onnxMask]; omega, ?_⟩
      intro x hx
      simp only [onnxMask] at hx
      obtain ⟨b, hbm, rfl⟩ := List.mem_map.mp hx
      have := hle b (List.mem_of_mem_take hbm)
      simp
      omega
  · intro hnone
    have hseq : preprocessBytecode hex M = List.replicate M 256 := by
      simp only [preprocessBytecode, hnone, Option.getD_none]
      rcases Nat.eq_zero_or_pos M with hM | hM
      · subst hM
        rw [if_neg (by omega)]
        simp
      · rw [if_pos (by simpa using hM)]
        simp
    refine ⟨hseq, ?_⟩
    rw [hseq]
    simp [onnxMask]

/-- C4 witness: the four-character bytecode 0x6080 with configured maximum 4
encodes to the two byte values followed by two sentinels, with mask two true
then two false. -/
theorem C4_encoding_witness :
    preprocessBytecode ("0x6080".toList) 4 = [96, 128, 256, 256] ∧
    onnxMask (preprocessBytecode ("0x6080".toList) 4) = [true, true, false, false] := by
  have h := (C4_encoding ("0x6080".toList) 4).1 [96, 128] (by rfl)
  have h2 := h.2.1 (by norm_num)
  exact ⟨h2.1.trans (by rfl), h2.2.trans (by rfl)⟩

/-- C9: when the feature extractor fails on the given bytecode, the
interpreter still returns a complete result with no features attached, and
every other field agrees with what any other extractor (in particular a
succeeding one) would produce; the failure never escapes the interpreter. -/
theorem C9_feature_failure_recovered
    (xf : List Char → Except String ContractFeatures) (out : RawOutputs)
    (hex : List Char) (msg : String) (h : xf hex = .error msg) :
    (postprocessOutputs xf out hex).contract_features = none ∧
    ∀ xf2 : List Char → Except String ContractFeatures,
      (postprocessOutputs xf out hex).is_malicious =
        (postprocessOutputs xf2 out hex).is_malicious ∧
      (postprocessOutputs xf out hex).malicious_probability =
        (postprocessOutputs xf2 out hex).malicious_probability ∧
      (postprocessOutputs xf out hex).vulnerabilities =
        (postprocessOutputs xf2 out hex).vulnerabilities ∧
      (postprocessOutputs xf out hex).risk_score =
        (postprocessOutputs xf2 out hex).risk_score ∧
      (postprocessOutputs xf out hex).embedding =
        (postprocessOutputs xf2 out hex).embedding := by
  refine ⟨?_, fun xf2 => ⟨rfl, rfl, rfl, rfl, rfl⟩⟩
  simp only [postprocessOutputs, h]

/-- C9 witness: a concrete failing extractor yields no features while the
other fields match those produced with a concrete succeeding extractor. -/
theorem C9_feature_failure_recovered_witness :
    (postprocessOutputs (fun _ => .error "boom") ⟨1, [], 0, []⟩ []).contract_features = none ∧
    (postprocessOutputs (fun _ => .error "boom") ⟨1, [], 0, []⟩ []).is_malicious =
      (postprocessOutputs (fun _ => .ok sampleFeatures) ⟨1, [], 0, []⟩ []).is_malicious ∧
    (postprocessOutputs (fun _ => .error "boom") ⟨1, [], 0, []⟩ []).malicious_probability =
      (postprocessOutputs (fun _ => .ok sampleFeatures) ⟨1, [], 0, []⟩ []).malicious_probability ∧
    (postprocessOutputs (fun _ => .error "boom") ⟨1, [], 0, []⟩ []).vulnerabilities =
      (postprocessOutputs (fun _ => .ok sampleFeatures) ⟨1, [], 0, []⟩ []).vulnerabilities ∧
    (postprocessOutputs (fun _ => .error "boom") ⟨1, [], 0, []⟩ []).risk_score =
      (postprocessOutputs (fun _ => .ok sampleFeatures) ⟨1, [], 0, []⟩ []).risk_score ∧
    (postprocessOutputs (fun _ => .error "boom") ⟨1, [], 0, []⟩ []).embedding =
      (postprocessOutputs (fun _ => .ok sampleFeatures) ⟨1, [], 0, []⟩ []).embedding := by
  have h := C9_feature_failure_recovered (fun _ => .error "boom") ⟨1, [], 0, []⟩ [] "boom" rfl
  have h2 := h.2 (fun _ => .ok sampleFeatures)
  exact ⟨h.1, h2.1, h2.2.1, h2.2.2.1, h2.2.2.2.1, h2.2.2.2.2⟩

/-- C2: for every byte sequence the decoder is total (the Lean recursion
terminates exactly as the source loop does, reading only positions below the
length) and the bytes consumed across all decoded instructions, with a
trailing PUSH operand truncated to the remaining bytes, add up to the input
length. -/
theorem C2_decoder_total_consumption (bs : List ℕ) :
    ((parseOpcodes bs).map Prod.snd).sum = bs.length := by
  induction bs using parseOpcodes.induct with
  | case1 => simp [parseOpcodes]
  | case2 op rest h ps ih =>
    simp only [parseOpcodes, if_pos h, List.map_cons, List.sum_cons]
    rw [ih, List.length_drop]
    simp only [List.length_cons]
    omega
  | case3 op rest h h2 ih =>
    simp only [parseOpcodes, if_neg h, if_pos h2, List.map_cons, List.sum_cons]
    rw [ih]
    simp only [List.length_cons]
    omega
  | case4 op rest h h2 h3 ih =>
    simp only [parseOpcodes, if_neg h, if_neg h2, if_pos h3, List.map_cons, List.sum_cons]
    rw [ih]
    simp only [List.length_cons]
    omega
  | case5 op rest h h2 h3 ih =>
    simp only [parseOpcodes, if_neg h, if_neg h2, if_neg h3, List.map_cons, List.sum_cons]
    rw [ih]
    simp only [List.length_cons]
    omega

/-- C1: the two execution paths do not apply the same pooling arithmetic.
On the one-byte input 0x00 encoded to length 4, even when the embedding plus
transformer stack produces identical per-position outputs on both paths, the
PyTorch path (called without an attention mask) pools with a plain mean over
all four positions giving 1/2, while the ONNX path (fed the mask bytecode
not-equal 256) pools only the single valid position giving 2. -/
theorem C1_pooling_paths_diverge :
    pytorchPathPooled sharedEncoder (preprocessBytecode ("0x00".toList) 4) = 1/2 ∧
    onnxPathPooled sharedEncoder (preprocessBytecode ("0x00".toList) 4) = 2 ∧
    pytorchPathPooled sharedEncoder (preprocessBytecode ("0x00".toList) 4) ≠
      onnxPathPooled sharedEncoder (preprocessBytecode ("0x00".toList) 4) := by
  have hseq : preprocessBytecode ("0x00".toList) 4 = [0, 256, 256, 256] := by rfl
  have henc : ∀ m, sharedEncoder [0, 256, 256, 256] m = [2, 0, 0, 0] := fun m => rfl
  have hmask : onnxMask [0, 256, 256, 256] = [true, false, false, false] := by rfl
  have h1 : pytorchPathPooled sharedEncoder (preprocessBytecode ("0x00".toList) 4) = 1/2 := by
    simp only [pytorchPathPooled, modelPooled, hseq, henc, plainPool, List.sum_cons,
      List.sum_nil, List.length_cons, List.length_nil]
    norm_num
  have h2 : onnxPathPooled sharedEncoder (preprocessBytecode ("0x00".toList) 4) = 2 := by
    simp only [onnxPathPooled, modelPooled, hseq, hmask, henc, maskedPool]
    norm_num [List.zipWith, List.count_cons, List.count_nil, List.sum_cons, List.sum_nil]
  exact ⟨h1, h2, by rw [h1, h2]; norm_num⟩

/-- C3 counterexample: the interpreter truncates rather than rounds. At raw
risk value 999/1000 the code computes int(99.9) which is 99, while
round(99.9) is 100. -/
theorem C3_counterexample :
    (postprocessOutputs (fun _ => .error "e") ⟨0, [], 999/1000, []⟩ []).risk_score = 99 ∧
    round ((999/1000 : ℚ) * 100) = 100 ∧
    (postprocessOutputs (fun _ => .error "e") ⟨0, [], 999/1000, []⟩ []).risk_score ≠
      round ((999/1000 : ℚ) * 100) := by
  have h99 : ((999 : ℚ)/1000) * 100 = 999/10 := by norm_num
  have hfloor : ⌊(999 : ℚ)/10⌋ = 99 := by
    rw [Int.floor_eq_iff]
    norm_num
  have h1 : (postprocessOutputs (fun _ => .error "e")
      ⟨0, [], 999/1000, []⟩ []).risk_score = 99 := by
    simp only [postprocessOutputs, pyInt]
    rw [if_pos (by norm_num), h99, hfloor]
  have h2 : round ((999/1000 : ℚ) * 100) = 100 := by
    rw [round_eq, h99]
    have : (999 : ℚ)/10 + 1/2 = 1004/10 := by norm_num
    rw [this, Int.floor_eq_iff]
    norm_num
  exact ⟨h1, h2, by rw [h1, h2]; norm_num⟩

/-- C3 amended: for a raw risk value in the unit interval the interpreter's
integer risk score is the floor (truncation) of 100 times the value, and it
lies in the interval from 0 to 100. -/
theorem C3_risk_score_floor (xf : List Char → Except String ContractFeatures)
    (out : RawOutputs) (hex : List Char)
    (h0 : 0 ≤ out.risk_score) (h1 : out.risk_score ≤ 1) :
    (postprocessOutputs xf out hex).risk_score = ⌊out.risk_score * 100⌋ ∧
    0 ≤ (postprocessOutputs xf out hex).risk_score ∧
    (postprocessOutputs xf out hex).risk_score ≤ 100 := by
  have hnn : (0 : ℚ) ≤ out.risk_score * 100 := by positivity
  have heq : (postprocessOutputs xf out hex).risk_score = ⌊out.risk_score * 100⌋ := by
    simp only [postprocessOutputs, pyInt]
    rw [if_pos hnn]
  refine ⟨heq, ?_, ?_⟩
  · rw [heq]
    exact Int.floor_nonneg.mpr hnn
  · rw [heq]
    have : out.risk_score * 100 ≤ (100 : ℚ) := by linarith
    calc ⌊out.risk_score * 100⌋ ≤ ⌊(100 : ℚ)⌋ := Int.floor_le_floor this
    _ = 100 := by norm_num

/-- C3 witness: at raw risk value 1/2 the risk score is 50, within bounds. -/
theorem C3_risk_score_floor_witness :
    (postprocessOutputs (fun _ => .error "e") ⟨0, [], 1/2, []⟩ []).risk_score = ⌊(1/2 : ℚ) * 100⌋ ∧
    0 ≤ (postprocessOutputs (fun _ => .error "e") ⟨0, [], 1/2, []⟩ []).risk_score ∧
    (postprocessOutputs (fun _ => .error "e") ⟨0, [], 1/2, []⟩ []).risk_score ≤ 100 :=
  C3_risk_score_floor (fun _ => .error "e") ⟨0, [], 1/2, []⟩ [] (by norm_num) (by norm_num)

/-- C5: the severity tiering follows the fixed three-group scheme: the
critical group maps confidence above 4/5 to critical, above 3/5 to high and
otherwise medium; the high group maps above 4/5 to high, above 1/2 to medium
and otherwise low; every other category maps above 4/5 to medium and
otherwise low. -/
theorem C5_severity_tiering (vt : String) (c : ℚ) :
    (vt ∈ ["reentrancy", "access_control", "flash_loan", "oracle_manipulation"] →
      (c > 4/5 → getSeverity vt c = "critical") ∧
      (c ≤ 4/5 → c > 3/5 → getSeverity vt c = "high") ∧
      (c ≤ 3/5 → getSeverity vt c = "medium")) ∧
    (vt ∈ ["rug_pull", "honeypot", "integer_overflow", "integer_underflow"] →
      (c > 4/5 → getSeverity vt c = "high") ∧
      (c ≤ 4/5 → c > 1/2 → getSeverity vt c = "medium") ∧
      (c ≤ 1/2 → getSeverity vt c = "low")) ∧
    (vt ∉ ["reentrancy", "access_control", "flash_loan", "oracle_manipulation"] →
      vt ∉ ["rug_pull", "honeypot", "integer_overflow", "integer_underflow"] →
      (c > 4/5 → getSeverity vt c = "medium") ∧
      (c ≤ 4/5 → getSeverity vt c = "low")) := by
  refine ⟨fun hmem => ?_, fun hmem => ?_, fun hn1 hn2 => ?_⟩
  · rw [getSeverity, if_pos hmem]
    refine ⟨fun hc => by rw [if_pos hc], fun hc1 hc2 => ?_, fun hc => ?_⟩
    · rw [if_neg (by linarith), if_pos hc2]
    · rw [if_neg (by linarith), if_neg (by linarith)]
  · have hnotc : vt ∉ ["reentrancy", "access_control", "flash_loan", "oracle_manipulation"] := by
      simp only [List.mem_cons, List.not_mem_nil, or_false] at hmem
      rcases hmem with rfl | rfl | rfl | rfl
      all_goals decide
    rw [getSeverity, if_neg hnotc, if_pos hmem]
    refine ⟨fun hc => by rw [if_pos hc], fun hc1 hc2 => ?_, fun hc => ?_⟩
    · rw [if_neg (by linarith), if_pos hc2]
    · rw [if_neg (by linarith), if_neg (by linarith)]
  · rw [getSeverity, if_neg hn1, if_neg hn2]
    refine ⟨fun hc => by rw [if_pos hc], fun hc => by rw [if_neg (by linarith)]⟩

/-- C5 witness: reentrancy at confidence 0.85 is critical, at 0.65 high, at
0.4 medium, matching the spec examples. -/
theorem C5_severity_tiering_witness :
    getSeverity "reentrancy" (85/100) = "critical" ∧
    getSeverity "reentrancy" (65/100) = "high" ∧
    getSeverity "reentrancy" (4/10) = "medium" :=
  ⟨((C5_severity_tiering "reentrancy" (85/100)).1 (by decide)).1 (by norm_num),
   (((C5_severity_tiering "reentrancy" (65/100)).1 (by decide)).2.1 (by norm_num) (by norm_num)),
   (((C5_severity_tiering "reentrancy" (4/10)).1 (by decide)).2.2 (by norm_num))⟩

/-- Membership in the insertion step. -/
theorem mem_insertByConf {x z : VulnerabilityPrediction} :
    ∀ {l : List VulnerabilityPrediction}, z ∈ insertByConf x l ↔ z = x ∨ z ∈ l
  | [] => by simp [insertByConf]
  | y :: ys => by
    simp only [insertByConf]
    split_ifs with h
    · simp [List.mem_cons]
    · rw [List.mem_cons, mem_insertByConf (l := ys), List.mem_cons]
      tauto

/-- The insertion step preserves descending order of confidences. -/
theorem pairwise_insertByConf {x : VulnerabilityPrediction} :
    ∀ {l : List VulnerabilityPrediction},
      List.Pairwise (fun a b => b.confidence ≤ a.confidence) l →
      List.Pairwise (fun a b => b.confidence ≤ a.confidence) (insertByConf x l)
  | [], _ => by simp [insertByConf]
  | y :: ys, h => by
    obtain ⟨hy, hys⟩ := List.pairwise_cons.mp h
    simp only [insertByConf]
    split_ifs with hc
    · refine List.pairwise_cons.mpr ⟨?_, h⟩
      intro z hz
      rcases List.mem_cons.mp hz with rfl | hz2
      · exact le_of_lt hc
      · exact le_trans (hy z hz2) (le_of_lt hc)
    · refine List.pairwise_cons.mpr ⟨?_, pairwise_insertByConf hys⟩
      intro z hz
      rcases mem_insertByConf.mp hz with rfl | hz2
      · exact not_lt.mp hc
      · exact hy z hz2

/-- The sort accumulator stays descending through the fold. -/
theorem pairwise_foldl_insert :
    ∀ (l : List VulnerabilityPrediction) (acc : List VulnerabilityPrediction),
      List.Pairwise (fun a b => b.confidence ≤ a.confidence) acc →
      List.Pairwise (fun a b => b.confidence ≤ a.confidence)
        (l.foldl (fun a x => insertByConf x a) acc)
  | [], acc, h => h
  | x :: xs, acc, h => by
    simp only [List.foldl_cons]
    exact pairwise_foldl_insert xs (insertByConf x acc) (pairwise_insertByConf h)

/-- Membership through the fold. -/
theorem mem_foldl_insert :
    ∀ (l : List VulnerabilityPrediction) (acc : List VulnerabilityPrediction)
      (z : VulnerabilityPrediction),
      z ∈ l.foldl (fun a x => insertByConf x a) acc ↔ z ∈ acc ∨ z ∈ l
  | [], acc, z => by simp
  | x :: xs, acc, z => by
    simp only [List.foldl_cons]
    rw [mem_foldl_insert xs (insertByConf x acc) z, mem_insertByConf, List.mem_cons]
    tauto

/-- Inserting an element whose confidence equals c appends it to the
c-confidence fiber of a descending list. -/
theorem filter_insertByConf_of_eq {x : VulnerabilityPrediction} {c : ℚ}
    (hx : x.confidence = c) :
    ∀ {l : List VulnerabilityPrediction},
      List.Pairwise (fun a b => b.confidence ≤ a.confidence) l →
      (insertByConf x l).filter (fun f => decide (f.confidence = c)) =
        l.filter (fun f => decide (f.confidence = c)) ++ [x]
  | [], _ => by simp [insertByConf, hx]
  | y :: ys, h => by
    obtain ⟨hy, hys⟩ := List.pairwise_cons.mp h
    simp only [insertByConf]
    split_ifs with hcmp
    · have hnil : (y :: ys).filter (fun f => decide (f.confidence = c)) = [] := by
        apply List.filter_eq_nil_iff.mpr
        intro a ha
        simp only [decide_eq_true_eq]
        rcases List.mem_cons.mp ha with rfl | ha2
        · intro hcon
          rw [hcon, ← hx] at hcmp
          exact absurd hcmp (lt_irrefl _)
        · have hle := hy a ha2
          intro hcon
          rw [hcon, ← hx] at hle
          exact absurd (lt_of_le_of_lt hle hcmp) (by rw [hx, ← hcon]; exact lt_irrefl _)
      rw [List.filter_cons_of_pos (by simp [hx]), hnil]
      rfl
    · by_cases hy2 : y.confidence = c
      · rw [List.filter_cons_of_pos (by simp [hy2]), List.filter_cons_of_pos (by simp [hy2]),
          filter_insertByConf_of_eq hx hys]
        rfl
      · rw [List.filter_cons_of_neg (by simp [hy2]), List.filter_cons_of_neg (by simp [hy2])]
        exact filter_insertByConf_of_eq hx hys

/-- Inserting an element whose confidence differs from c leaves the
c-confidence fiber unchanged. -/
theorem filter_insertByConf_of_ne {x : VulnerabilityPrediction} {c : ℚ}
    (hx : x.confidence ≠ c) :
    ∀ {l : List VulnerabilityPrediction},
      (insertByConf x l).filter (fun f => decide (f.confidence = c)) =
        l.filter (fun f => decide (f.confidence = c))
  | [] => by simp [insertByConf, hx]
  | y :: ys => by
    simp only [insertByConf]
    split_ifs with hcmp
    · rw [List.filter_cons_of_neg (by simp [hx])]
    · by_cases hy2 : y.confidence = c
      · rw [List.filter_cons_of_pos (by simp [hy2]), List.filter_cons_of_pos (by simp [hy2]),
          filter_insertByConf_of_ne hx]
      · rw [List.filter_cons_of_neg (by simp [hy2]), List.filter_cons_of_neg (by simp [hy2])]
        exact filter_insertByConf_of_ne hx

/-- The fold preserves every confidence fiber in input order. -/
theorem filter_foldl_insert (c : ℚ) :
    ∀ (l : List VulnerabilityPrediction) (acc : List VulnerabilityPrediction),
      List.Pairwise (fun a b => b.confidence ≤ a.confidence) acc →
      (l.foldl (fun a x => insertByConf x a) acc).filter
          (fun f => decide (f.confidence = c)) =
        acc.filter (fun f => decide (f.confidence = c))
          ++ l.filter (fun f => decide (f.confidence = c))
  | [], acc, _ => by simp
  | x :: xs, acc, h => by
    simp only [List.foldl_cons]
    rw [filter_foldl_insert c xs (insertByConf x acc) (pairwise_insertByConf h)]
    by_cases hx : x.confidence = c
    · rw [filter_insertByConf_of_eq hx h, List.filter_cons_of_pos (by simp [hx]),
        List.append_assoc]
      rfl
    · rw [filter_insertByConf_of_ne hx, List.filter_cons_of_neg (by simp [hx])]

/-- The stable descending sort preserves every confidence fiber. -/
theorem filter_sortByConfDesc (l : List VulnerabilityPrediction) (c : ℚ) :
    (sortByConfDesc l).filter (fun f => decide (f.confidence = c)) =
      l.filter (fun f => decide (f.confidence = c)) := by
  have h := filter_foldl_insert c l [] (by simp)
  simpa [sortByConfDesc] using h

/-- C6: the interpreter's findings list contains exactly the categories whose
probability exceeds 3/10 (paired with their confidence and severity), is
sorted by confidence in descending order, and every confidence fiber keeps
the canonical category order (the sort is stable). -/
theorem C6_findings_sorted_stable (xf : List Char → Except String ContractFeatures)
    (out : RawOutputs) (hex : List Char)
    (_hlen : out.vulnerabilities.length = VULN_TYPES.length) :
    (∀ f, f ∈ (postprocessOutputs xf out hex).vulnerabilities ↔
      f ∈ candidateFindings out.vulnerabilities) ∧
    List.Pairwise (fun a b => b.confidence ≤ a.confidence)
      (postprocessOutputs xf out hex).vulnerabilities ∧
    (∀ c : ℚ, (postprocessOutputs xf out hex).vulnerabilities.filter
        (fun f => decide (f.confidence = c)) =
      (candidateFindings out.vulnerabilities).filter
        (fun f => decide (f.confidence = c))) ∧
    (∀ vt p, (vt, p) ∈ VULN_TYPES.zip out.vulnerabilities →
      ((⟨vt, p, getSeverity vt p⟩ : VulnerabilityPrediction) ∈
          (postprocessOutputs xf out hex).vulnerabilities ↔ p > 3/10)) := by
  have hvul : (postprocessOutputs xf out hex).vulnerabilities =
      sortByConfDesc (candidateFindings out.vulnerabilities) := rfl
  have hmem : ∀ f, f ∈ (postprocessOutputs xf out hex).vulnerabilities ↔
      f ∈ candidateFindings out.vulnerabilities := by
    intro f
    rw [hvul]
    have h := mem_foldl_insert (candidateFindings out.vulnerabilities) [] f
    simp only [List.not_mem_nil, false_or] at h
    exact h
  refine ⟨hmem, ?_, ?_, ?_⟩
  · rw [hvul]
    exact pairwise_foldl_insert _ [] (by simp)
  · intro c
    rw [hvul]
    exact filter_sortByConfDesc _ c
  · intro vt p hzip
    rw [hmem]
    constructor
    · intro hc
      obtain ⟨q, hqmem, hq⟩ := List.mem_filterMap.mp hc
      by_cases hgt : q.2 > 3/10
      · rw [if_pos hgt] at hq
        have hp : q.2 = p := congrArg VulnerabilityPrediction.confidence (Option.some.inj hq)
        rwa [hp] at hgt
      · rw [if_neg hgt] at hq
        exact absurd hq (by simp)
    · intro hp
      exact List.mem_filterMap.mpr ⟨(vt, p), hzip, by rw [if_pos hp]⟩

/-- C6 witness: on a concrete probability vector with a tie at 2/5 between
reentrancy and access_control and a 9/10 rug_pull, the tied fiber of the
sorted findings equals the canonical-order fiber, and the rug_pull finding is
reported. -/
theorem C6_findings_sorted_stable_witness :
    ((postprocessOutputs (fun _ => .error "e")
        ⟨0, [2/5, 2/5, 0, 0, 0, 0, 0, 0, 0, 9/10, 0, 0, 0], 0, []⟩ []).vulnerabilities.filter
      (fun f => decide (f.confidence = 2/5)) =
      (candidateFindings [2/5, 2/5, 0, 0, 0, 0, 0, 0, 0, 9/10, 0, 0, 0]).filter
        (fun f => decide (f.confidence = 2/5))) ∧
    (((⟨"rug_pull", 9/10, getSeverity "rug_pull" (9/10)⟩ : VulnerabilityPrediction) ∈
        (postprocessOutputs (fun _ => .error "e")
          ⟨0, [2/5, 2/5, 0, 0, 0, 0, 0, 0, 0, 9/10, 0, 0, 0], 0, []⟩ []).vulnerabilities) ↔
      (9/10 : ℚ) > 3/10) := by
  have h := C6_findings_sorted_stable (fun _ => .error "e")
    ⟨0, [2/5, 2/5, 0, 0, 0, 0, 0, 0, 0, 9/10, 0, 0, 0], 0, []⟩ [] (by rfl)
  have hz : VULN_TYPES.zip [(2:ℚ)/5, 2/5, 0, 0, 0, 0, 0, 0, 0, 9/10, 0, 0, 0] =
      [("reentrancy", (2:ℚ)/5), ("access_control", 2/5), ("integer_overflow", 0),
       ("integer_underflow", 0), ("unchecked_call", 0), ("tx_origin", 0),
       ("timestamp_dependency", 0), ("flash_loan", 0), ("oracle_manipulation", 0),
       ("rug_pull", 9/10), ("honeypot", 0), ("logic_error", 0),
       ("denial_of_service", 0)] := rfl
  have hmem9 : ("rug_pull", (9:ℚ)/10) ∈
      VULN_TYPES.zip [(2:ℚ)/5, 2/5, 0, 0, 0, 0, 0, 0, 0, 9/10, 0, 0, 0] := by
    rw [hz]
    exact List.mem_cons_of_mem _ (List.mem_cons_of_mem _ (List.mem_cons_of_mem _
      (List.mem_cons_of_mem _ (List.mem_cons_of_mem _ (List.mem_cons_of_mem _
      (List.mem_cons_of_mem _ (List.mem_cons_of_mem _ (List.mem_cons_of_mem _
      (List.mem_cons_self _ _)))))))))
  exact ⟨h.2.2.1 (2/5), h.2.2.2 "rug_pull" (9/10) hmem9⟩

/-- Sums of squares are nonnegative. -/
theorem sumSq_nonneg (a : List ℝ) : 0 ≤ sumSq a := by
  apply List.sum_nonneg
  intro x hx
  obtain ⟨y, -, rfl⟩ := List.mem_map.mp hx
  exact mul_self_nonneg y

/-- Cauchy-Schwarz inequality for the list dot product. -/
theorem dotL_sq_le : ∀ (a b : List ℝ), (dotL a b) ^ 2 ≤ sumSq a * sumSq b
  | [], b => by
    simp [dotL, sumSq]
  | x :: a, [] => by
    simp [dotL, sumSq]
  | x :: a, y :: b => by
    have ih := dotL_sq_le a b
    have hA := sumSq_nonneg a
    have hB := sumSq_nonneg b
    have hd : dotL (x :: a) (y :: b) = x * y + dotL a b := by
      simp [dotL]
    have hsa : sumSq (x :: a) = x * x + sumSq a := by
      simp [sumSq]
    have hsb : sumSq (y :: b) = y * y + sumSq b := by
      simp [sumSq]
    rw [hd, hsa, hsb]
    rcases eq_or_lt_of_le hA with hA0 | hA0
    · have hd0 : dotL a b ^ 2 ≤ 0 := by rw [← hA0] at ih; simpa using ih
      have hd0' : dotL a b = 0 := by nlinarith [sq_nonneg (dotL a b)]
      rw [hd0', ← hA0]
      nlinarith [sq_nonneg x, sq_nonneg y, mul_self_nonneg x, hB]
    · have h1 : 0 ≤ (x * dotL a b - y * sumSq a) ^ 2 := sq_nonneg _
      have h2 : 0 ≤ (sumSq a + x ^ 2) * (sumSq a * sumSq b - (dotL a b) ^ 2) :=
        mul_nonneg (by positivity) (by linarith)
      nlinarith [h1, h2, hA0]

/-- The absolute dot product is bounded by the product of norms. -/
theorem abs_dotL_le (a b : List ℝ) : |dotL a b| ≤ normL a * normL b := by
  have h := dotL_sq_le a b
  have h1 : normL a * normL b = Real.sqrt (sumSq a * sumSq b) := by
    rw [normL, normL, Real.sqrt_mul (sumSq_nonneg a)]
  calc |dotL a b| = Real.sqrt ((dotL a b) ^ 2) := (Real.sqrt_sq_eq_abs _).symm
  _ ≤ Real.sqrt (sumSq a * sumSq b) := Real.sqrt_le_sqrt h
  _ = normL a * normL b := h1.symm

/-- C7 counterexample: on the one-dimensional embeddings 1 and -1 the
similarity function returns -1, outside the claimed interval from 0 to 1. -/
theorem C7_counterexample :
    similarityFromEmbeddings [(1 : ℝ)] [(-1 : ℝ)] = -1 ∧
    ¬(0 ≤ similarityFromEmbeddings [(1 : ℝ)] [(-1 : ℝ)]) := by
  have hs1 : sumSq [(1 : ℝ)] = 1 := by simp [sumSq]
  have hs2 : sumSq [(-1 : ℝ)] = 1 := by simp [sumSq]
  have hn1 : normL [(1 : ℝ)] = 1 := by rw [normL, hs1, Real.sqrt_one]
  have hn2 : normL [(-1 : ℝ)] = 1 := by rw [normL, hs2, Real.sqrt_one]
  have hd : dotL [(1 : ℝ)] [(-1 : ℝ)] = -1 := by simp [dotL]
  have hs : similarityFromEmbeddings [(1 : ℝ)] [(-1 : ℝ)] = -1 := by
    rw [similarityFromEmbeddings, if_neg (by simp), if_neg (by rw [hn1, hn2]; norm_num),
      hd, hn1, hn2]
    norm_num
  exact ⟨hs, by rw [hs]; norm_num⟩

/-- C7 amended: the similarity function always returns a value in the
interval from -1 to 1 (cosine similarity is not clamped to be nonnegative),
and the degenerate branches (empty embedding or zero norm) return exactly 0
with no division performed. -/
theorem C7_similarity_range (e1 e2 : List ℝ) :
    -1 ≤ similarityFromEmbeddings e1 e2 ∧ similarityFromEmbeddings e1 e2 ≤ 1 ∧
    ((e1 = [] ∨ e2 = [] ∨ normL e1 = 0 ∨ normL e2 = 0) →
      similarityFromEmbeddings e1 e2 = 0) := by
  by_cases h1 : e1 = [] ∨ e2 = []
  · have hs : similarityFromEmbeddings e1 e2 = 0 := by
      rw [similarityFromEmbeddings, if_pos h1]
    rw [hs]
    exact ⟨by norm_num, by norm_num, fun _ => rfl⟩
  · by_cases h2 : normL e1 = 0 ∨ normL e2 = 0
    · have hs : similarityFromEmbeddings e1 e2 = 0 := by
        rw [similarityFromEmbeddings, if_neg h1, if_pos h2]
      rw [hs]
      exact ⟨by norm_num, by norm_num, fun _ => rfl⟩
    · have hs : similarityFromEmbeddings e1 e2 = dotL e1 e2 / (normL e1 * normL e2) := by
        rw [similarityFromEmbeddings, if_neg h1, if_neg h2]
      push_neg at h2
      have hn1 : 0 < normL e1 := lt_of_le_of_ne (Real.sqrt_nonneg _) (Ne.symm h2.1)
      have hn2 : 0 < normL e2 := lt_of_le_of_ne (Real.sqrt_nonneg _) (Ne.symm h2.2)
      have hpos : 0 < normL e1 * normL e2 := mul_pos hn1 hn2
      have habs : |similarityFromEmbeddings e1 e2| ≤ 1 := by
        rw [hs, abs_div, abs_of_pos hpos]
        exact (div_le_one hpos).mpr (abs_dotL_le e1 e2)
      obtain ⟨hlo, hhi⟩ := abs_le.mp habs
      refine ⟨hlo, hhi, fun hdeg => ?_⟩
      rcases hdeg with h | h | h | h
      · exact absurd (Or.inl h) h1
      · exact absurd (Or.inr h) h1
      · exact absurd h h2.1
      · exact absurd h h2.2

/-- C7 amended witness: the similarity of two zero embeddings is exactly 0
through the zero-norm branch. -/
theorem C7_similarity_range_witness :
    similarityFromEmbeddings [(0 : ℝ)] [(0 : ℝ)] = 0 :=
  (C7_similarity_range [(0 : ℝ)] [(0 : ℝ)]).2.2
    (Or.inr (Or.inr (Or.inl (by rw [normL]; simp [sumSq]))))

/-- The list dot product is symmetric. -/
theorem dotL_comm : ∀ (a b : List ℝ), dotL a b = dotL b a
  | [], b => by cases b <;> simp [dotL]
  | x :: a, [] => by simp [dotL]
  | x :: a, y :: b => by
    have ih := dotL_comm a b
    simp only [dotL, List.zipWith_cons_cons, List.sum_cons] at ih ⊢
    rw [mul_comm, ih]

/-- C10: the similarity function is symmetric in its two arguments, in the
degenerate branches and in the cosine branch alike. -/
theorem C10_similarity_symm (e1 e2 : List ℝ) :
    similarityFromEmbeddings e1 e2 = similarityFromEmbeddings e2 e1 := by
  rw [similarityFromEmbeddings, similarityFromEmbeddings]
  by_cases h1 : e1 = [] ∨ e2 = []
  · rw [if_pos h1, if_pos (Or.symm h1)]
  · rw [if_neg h1, if_neg (fun hh => h1 (Or.symm hh))]
    by_cases h2 : normL e1 = 0 ∨ normL e2 = 0
    · rw [if_pos h2, if_pos (Or.symm h2)]
    · rw [if_neg h2, if_neg (fun hh => h2 (Or.symm hh)), dotL_comm, mul_comm]

/-- Entropy of the empty byte string is 0, the early-return branch. -/
theorem codeEntropy_nil : codeEntropy [] = 0 := by
  rw [codeEntropy, if_pos rfl]

/-- Shannon entropy of the byte distribution is nonnegative: every observed
frequency lies in the unit interval, so each summand is nonnegative. -/
theorem codeEntropy_nonneg (data : List ℕ) : 0 ≤ codeEntropy data := by
  rw [codeEntropy]
  split_ifs with h
  · exact le_refl 0
  · apply Finset.sum_nonneg
    intro v hv
    have hlen : 0 < data.length := List.length_pos.mpr h
    have hcount : 0 < data.count v := List.count_pos_iff.mpr (List.mem_toFinset.mp hv)
    have hp0 : (0 : ℝ) < (data.count v : ℝ) / (data.length : ℝ) := by positivity
    have hp1 : (data.count v : ℝ) / (data.length : ℝ) ≤ 1 := by
      rw [div_le_one (by positivity)]
      exact_mod_cast List.count_le_length v data
    have hlog : Real.logb 2 ((data.count v : ℝ) / (data.length : ℝ)) ≤ 0 :=
      Real.logb_nonpos (by norm_num) hp0.le hp1
    nlinarith

/-- Elementary Gibbs-style bound: for positive p and n, the natural-log
entropy summand -(p log p) is at most 1/n - p + p log n. -/
theorem negMulLog_le_bound {p : ℝ} (hp : 0 < p) {n : ℝ} (hn : 0 < n) :
    -(p * Real.log p) ≤ 1 / n - p + p * Real.log n := by
  have hx : (0 : ℝ) < 1 / (n * p) := by positivity
  have h1 := Real.log_le_sub_one_of_pos hx
  have h2 : Real.log (1 / (n * p)) = -(Real.log n + Real.log p) := by
    rw [one_div, Real.log_inv, Real.log_mul (ne_of_gt hn) (ne_of_gt hp)]
  rw [h2] at h1
  have h4 : p * (-(Real.log n + Real.log p)) ≤ p * (1 / (n * p) - 1) :=
    mul_le_mul_of_nonneg_left h1 hp.le
  have h5 : p * (1 / (n * p)) = 1 / n := by
    field_simp
    ring
  nlinarith [h4, h5]

/-- Shannon entropy of a nonempty byte string over at most 256 distinct
values is at most 8 bits. -/
theorem codeEntropy_le_eight (data : List ℕ) (hne : data ≠ [])
    (h256 : ∀ b ∈ data, b < 256) :
    codeEntropy data ≤ 8 := by
  rw [codeEntropy, if_neg hne]
  have hlen : 0 < data.length := List.length_pos.mpr hne
  have hlenR : (0 : ℝ) < (data.length : ℝ) := by exact_mod_cast hlen
  have hlog2 : (0 : ℝ) < Real.log 2 := Real.log_pos (by norm_num)
  set p : ℕ → ℝ := fun v => (data.count v : ℝ) / (data.length : ℝ) with hp
  have hterm : ∀ v ∈ data.toFinset,
      -(p v * Real.logb 2 (p v)) = (-(p v * Real.log (p v))) / Real.log 2 := by
    intro v hv
    rw [Real.logb]
    field_simp
  rw [Finset.sum_congr rfl hterm, ← Finset.sum_div]
  have hcard : data.toFinset.card ≤ 256 := by
    have hsub : data.toFinset ⊆ Finset.range 256 := by
      intro v hv
      exact Finset.mem_range.mpr (h256 v (List.mem_toFinset.mp hv))
    calc data.toFinset.card ≤ (Finset.range 256).card := Finset.card_le_card hsub
    _ = 256 := Finset.card_range 256
  have hsump : ∑ v ∈ data.toFinset, p v = 1 := by
    rw [hp, ← Finset.sum_div, div_eq_one_iff_eq (ne_of_gt hlenR)]
    exact_mod_cast List.sum_toFinset_count_eq_length data
  have hbound : ∀ v ∈ data.toFinset,
      -(p v * Real.log (p v)) ≤ 1 / 256 - p v + p v * Real.log 256 := by
    intro v hv
    have hcount : 0 < data.count v := List.count_pos_iff.mpr (List.mem_toFinset.mp hv)
    have hppos : 0 < p v := by rw [hp]; positivity
    exact negMulLog_le_bound hppos (by norm_num)
  have hsum : ∑ v ∈ data.toFinset, -(p v * Real.log (p v)) ≤
      ∑ v ∈ data.toFinset, (1 / 256 - p v + p v * Real.log 256) :=
    Finset.sum_le_sum hbound
  have hsum2 : ∑ v ∈ data.toFinset, ((1 : ℝ) / 256 - p v + p v * Real.log 256) =
      (data.toFinset.card : ℝ) / 256 - 1 + Real.log 256 := by
    rw [Finset.sum_add_distrib, Finset.sum_sub_distrib, ← Finset.sum_mul, hsump,
      Finset.sum_const]
    simp
    ring
  have hlog256 : Real.log 256 = 8 * Real.log 2 := by
    have h28 : (256 : ℝ) = 2 ^ 8 := by norm_num
    rw [h28, Real.log_pow]
    norm_num
  have hnum : ∑ v ∈ data.toFinset, -(p v * Real.log (p v)) ≤ 8 * Real.log 2 := by
    have hcardR : (data.toFinset.card : ℝ) ≤ 256 := by exact_mod_cast hcard
    calc ∑ v ∈ data.toFinset, -(p v * Real.log (p v))
        ≤ (data.toFinset.card : ℝ) / 256 - 1 + Real.log 256 := by rw [← hsum2]; exact hsum
    _ ≤ 256 / 256 - 1 + Real.log 256 := by
        have h6 : (data.toFinset.card : ℝ) / 256 ≤ 256 / 256 := by gcongr
        linarith
    _ = Real.log 256 := by norm_num
    _ = 8 * Real.log 2 := hlog256
  rw [div_le_iff₀ hlog2]
  exact hnum

/-- C8: every feature record the extractor returns satisfies the invariants:
the unique-opcode count equals the size of the opcode distribution, external
calls dominate the plain call count, code entropy lies between 0 and 8 bits,
and the empty bytecode yields entropy exactly 0. -/
theorem C8_feature_invariants (hex : List Char) (f : ContractFeatures)
    (h : extractFeatures hex = .ok f) :
    f.unique_opcodes = f.opcode_distribution.length ∧
    f.call_count ≤ f.external_calls ∧
    0 ≤ f.code_entropy ∧ f.code_entropy ≤ 8 ∧
    (hex = [] → f.code_entropy = 0) := by
  rw [extractFeatures] at h
  cases hfm : fromhexChars (strip0x (hex.map Char.toLower)) with
  | none =>
    rw [hfm] at h
    exact absurd h (by simp)
  | some bytecode =>
    rw [hfm] at h
    simp only [Except.ok.injEq] at h
    subst h
    refine ⟨rfl, ?_, codeEntropy_nonneg bytecode, ?_, ?_⟩
    · simp only [countExternalCalls]
      omega
    · rcases eq_or_ne bytecode [] with rfl | hne
      · rw [codeEntropy_nil]
        norm_num
      · apply codeEntropy_le_eight bytecode hne
        intro b hb
        have := fromhexChars_all_le _ _ hfm b hb
        omega
    · intro hhex
      subst hhex
      have hb : bytecode = [] := by
        simp only [List.map_nil] at hfm
        have hstrip : strip0x [] = [] := rfl
        rw [hstrip] at hfm
        simp only [fromhexChars, Option.some.injEq] at hfm
        exact hfm.symm
      rw [hb]
      exact codeEntropy_nil

/-- C8 witness: extracting from the empty bytecode succeeds and the record
satisfies every invariant, with entropy exactly 0. -/
theorem C8_feature_invariants_witness :
    extractFeatures [] = .ok emptyFeatures ∧
    emptyFeatures.unique_opcodes = emptyFeatures.opcode_distribution.length ∧
    emptyFeatures.call_count ≤ emptyFeatures.external_calls ∧
    0 ≤ emptyFeatures.code_entropy ∧ emptyFeatures.code_entropy ≤ 8 ∧
    emptyFeatures.code_entropy = 0 := by
  have hok : extractFeatures [] = .ok emptyFeatures := by
    simp only [extractFeatures, List.map_nil, strip0x, fromhexChars, opcodeNames,
      parseOpcodes, emptyFeatures, countExternalCalls, estimateComplexity,
      extractSelectors, findSelectorMatches, detectProxyPattern, detectUpgradeable,
      detectOwnership, detectPausable, seqHas, seqStarts, List.map_nil]
    norm_num
  have h := C8_feature_invariants [] emptyFeatures hok
  exact ⟨hok, h.1, h.2.1, h.2.2.1, h.2.2.2.1, h.2.2.2.2 rfl⟩

end Vigilum
